import Mathlib

/-!
Verification of the `logprob` crate: a wrapper type `LogProb<T>` for validated
log-probabilities, a numerically stable pairwise adder, slice- and
iterator-based log-sum-exp reducers, and a softmax normaliser.

The floating-point type is shallowly embedded as `Logprob.F`: an idealised
IEEE-754 value whose finite magnitudes are exact rationals (no rounding), with
the special values NaN, the two infinities and the negative zero kept
distinct, and with IEEE special-value rules for negation, addition,
subtraction, multiplication and comparison.  The transcendental operations
`exp`, `ln`, `ln_1p` and the constant `LN_2` are the crate's "numeric
capability interface" (the Rust code is generic over `T: Float + Ln2`): they
are a parameter `Ops`, and the analytic facts the proofs rely on — facts true
of the real functions and of any faithfully rounded implementation, such as
`exp` of a nonpositive argument lying in [0,1] — are collected in the
predicate `LawfulOps`.  A concrete instance `toyOps` witnesses that those
facts are mutually satisfiable.
-/

namespace Logprob

/-- An idealised IEEE-754 floating value: NaN, the two infinities, the
negative zero, and exact finite values `fin q` (where `fin 0` is the positive
zero). -/
inductive F where
  | nan : F
  | negInf : F
  | posInf : F
  | negZero : F
  | fin : ℚ → F
deriving DecidableEq

namespace F

/-- Rust `f64::is_nan`. -/
def isNan : F → Bool
  | nan => true
  | _ => false

/-- Rust `num_traits::Zero::is_zero` (`self == 0.0`): true of both signed
zeros. -/
def isZero : F → Bool
  | negZero => true
  | fin q => decide (q = 0)
  | _ => false

/-- Rust `f64::is_sign_positive`: the sign bit is clear.  The standard NaN
constant has a positive sign; every caller in the crate tests `is_nan`
first, so the choice is irrelevant. -/
def isSignPositive : F → Bool
  | nan => true
  | posInf => true
  | negInf => false
  | negZero => false
  | fin q => decide (0 ≤ q)

/-- Rust `f64::is_infinite`. -/
def isInfinite : F → Bool
  | posInf => true
  | negInf => true
  | _ => false

/-- IEEE negation (flips the sign bit; in particular `-(+0) = -0`). -/
def neg : F → F
  | nan => nan
  | negInf => posInf
  | posInf => negInf
  | negZero => fin 0
  | fin q => if q = 0 then negZero else fin (-q)

/-- IEEE addition, exact on finite values: NaN propagates, opposite
infinities give NaN, `-0 + -0 = -0`, and `-0` is otherwise an identity
(`-0 + +0 = +0`, matching round-to-nearest). -/
def add : F → F → F
  | nan, _ => nan
  | _, nan => nan
  | negInf, posInf => nan
  | posInf, negInf => nan
  | negInf, _ => negInf
  | _, negInf => negInf
  | posInf, _ => posInf
  | _, posInf => posInf
  | negZero, negZero => negZero
  | negZero, fin q => fin q
  | fin q, negZero => fin q
  | fin a, fin b => fin (a + b)

/-- IEEE subtraction (`x - y = x + (-y)`), exact on finite values: in
particular `(-∞) - (-∞) = NaN`, `a - a = +0` for finite `a` (round-to-nearest
gives the positive zero), and `-0 - (+0) = -0`. -/
def sub : F → F → F
  | nan, _ => nan
  | _, nan => nan
  | negInf, negInf => nan
  | posInf, posInf => nan
  | negInf, _ => negInf
  | _, negInf => posInf
  | posInf, _ => posInf
  | _, posInf => negInf
  | negZero, negZero => fin 0
  | negZero, fin q => if q = 0 then negZero else fin (-q)
  | fin q, negZero => fin q
  | fin a, fin b => fin (a - b)

/-- IEEE multiplication, exact on finite values: NaN propagates, a zero times
an infinity is NaN, and the sign of a zero or infinite product is the
exclusive-or of the operand signs. -/
def mul : F → F → F
  | nan, _ => nan
  | _, nan => nan
  | posInf, posInf => posInf
  | posInf, negInf => negInf
  | negInf, posInf => negInf
  | negInf, negInf => posInf
  | posInf, negZero => nan
  | negZero, posInf => nan
  | negInf, negZero => nan
  | negZero, negInf => nan
  | posInf, fin q => if q = 0 then nan else if q < 0 then negInf else posInf
  | fin q, posInf => if q = 0 then nan else if q < 0 then negInf else posInf
  | negInf, fin q => if q = 0 then nan else if q < 0 then posInf else negInf
  | fin q, negInf => if q = 0 then nan else if q < 0 then posInf else negInf
  | negZero, negZero => fin 0
  | negZero, fin q => if q < 0 then fin 0 else negZero
  | fin q, negZero => if q < 0 then fin 0 else negZero
  | fin a, fin b =>
      if a * b = 0 ∧ (a < 0 ∨ b < 0) ∧ ¬(a < 0 ∧ b < 0) then negZero
      else fin (a * b)

/-- IEEE equality (`PartialEq` on floats): NaN equals nothing and the two
zeros are equal. -/
def ieeeEq : F → F → Bool
  | nan, _ => false
  | _, nan => false
  | negInf, negInf => true
  | posInf, posInf => true
  | negZero, negZero => true
  | negZero, fin q => decide (q = 0)
  | fin q, negZero => decide (q = 0)
  | fin a, fin b => decide (a = b)
  | _, _ => false

/-- IEEE strict less-than (`PartialOrd` on floats): false whenever either
operand is NaN, and the two zeros are equal. -/
def ieeeLt : F → F → Bool
  | nan, _ => false
  | _, nan => false
  | negInf, negInf => false
  | negInf, _ => true
  | _, negInf => false
  | posInf, posInf => false
  | posInf, _ => false
  | _, posInf => true
  | negZero, negZero => false
  | negZero, fin q => decide (0 < q)
  | fin q, negZero => decide (q < 0)
  | fin a, fin b => decide (a < b)

/-- IEEE strict greater-than. -/
def ieeeGt (x y : F) : Bool := ieeeLt y x

/-- The value is strictly positive: positive infinity or a positive finite
value (neither zero counts). -/
def isStrictPos : F → Bool
  | posInf => true
  | fin q => decide (0 < q)
  | _ => false

/-- The `LogProb` type invariant on the wrapped float: never NaN and never
strictly positive — so strictly negative, a signed zero, or negative
infinity. -/
def isValidLP (v : F) : Bool := !v.isNan && !v.isStrictPos

/-- The value is nonpositive and not NaN (negative infinity, a signed zero,
or a finite value `≤ 0`): the domain on which `exp` is a probability. -/
def isNonpos : F → Bool
  | negInf => true
  | negZero => true
  | fin q => decide (q ≤ 0)
  | _ => false

end F

/-- The crate's numeric capability interface: what `T: Float + Ln2` provides
beyond ordering and field arithmetic.  (`Ln2` also fixes the constants
`ZERO = +0.0` and `NEG_INFINITY`, embedded here as `F.fin 0` and
`F.negInf`.) -/
structure Ops where
  exp : F → F
  ln : F → F
  ln1p : F → F
  ln2 : F

/-- src/errors.rs: error returned when a `LogProb` is constructed from a NaN
or positive value. -/
inductive FloatIsNanOrPositive where
  | mk : FloatIsNanOrPositive
deriving DecidableEq

/-- src/errors.rs: error returned when a sum of probabilities exceeds one. -/
inductive ProbabilitiesSumToGreaterThanOne where
  | mk : ProbabilitiesSumToGreaterThanOne
deriving DecidableEq

/-- Error returned by `softmax` when an input element is NaN or positive
infinity. -/
inductive FloatIsNanOrPositiveInfinity where
  | mk : FloatIsNanOrPositiveInfinity
deriving DecidableEq

/-- src/lib.rs: `pub struct LogProb<T>(T)` — a plain wrapper; the invariant
is maintained by the validated constructors, not by the type itself. -/
structure LogProb where
  val : F
deriving DecidableEq

namespace LogProb

/-- The type invariant of `LogProb`, as a predicate on an instance. -/
def IsValid (x : LogProb) : Prop := x.val.isValidLP = true

/-- src/lib.rs `LogProb::new`: validated construction from a log-domain
value. -/
def new (val : F) : Except FloatIsNanOrPositive LogProb :=
  if val.isNan || (!val.isZero && val.isSignPositive) then
    Except.error FloatIsNanOrPositive.mk
  else
    Except.ok ⟨val⟩

/-- src/lib.rs `LogProb::from_raw_prob`: applies `ln` and then the same
validation as `new`. -/
def from_raw_prob (ops : Ops) (val : F) : Except FloatIsNanOrPositive LogProb :=
  let val := ops.ln val
  if val.isNan || (!val.isZero && val.isSignPositive) then
    Except.error FloatIsNanOrPositive.mk
  else
    Except.ok ⟨val⟩

/-- src/lib.rs `LogProb::into_inner`. -/
def into_inner (x : LogProb) : F := x.val

/-- src/lib.rs `LogProb::raw_prob`: `exp` of the stored value. -/
def raw_prob (ops : Ops) (x : LogProb) : F := ops.exp x.val

/-- src/lib.rs `LogProb::opposite_prob`: `ln_1p(-(exp x))`, wrapped directly
with no re-validation. -/
def opposite_prob (ops : Ops) (x : LogProb) : LogProb :=
  ⟨ops.ln1p (F.neg (ops.exp x.val))⟩

/-- src/lib.rs derived `PartialEq` for `LogProb`: IEEE equality on the
wrapped floats. -/
def beq (x y : LogProb) : Bool := F.ieeeEq x.val y.val

/-- src/math.rs `impl Add for LogProb` (and `AddAssign`, which performs the
identical float addition on its receiver): raw float addition with no
validation. -/
def add (x y : LogProb) : LogProb := ⟨F.add x.val y.val⟩

/-- src/adding.rs `LogProb::add_log_prob_internal`: the stable two-term
log-sum-exp kernel on raw floats. -/
def add_log_prob_internal (ops : Ops) (x y : F) : F :=
  if F.ieeeGt x y then
    F.add x (ops.ln1p (ops.exp (F.sub y x)))
  else if F.ieeeLt x y then
    F.add y (ops.ln1p (ops.exp (F.sub x y)))
  else
    F.add x ops.ln2

/-- src/adding.rs `LogProb::add_log_prob`: the kernel result validated by
`LogProb::new`, the construction error converted (via the `From` impl) to
`ProbabilitiesSumToGreaterThanOne`. -/
def add_log_prob (ops : Ops) (x y : LogProb) :
    Except ProbabilitiesSumToGreaterThanOne LogProb :=
  match new (add_log_prob_internal ops x.val y.val) with
  | Except.ok z => Except.ok z
  | Except.error _ => Except.error ProbabilitiesSumToGreaterThanOne.mk

/-- src/adding.rs `LogProb::add_log_prob_clamped`: the strict result, with
the error case replaced by `LogProb(T::ZERO)`. -/
def add_log_prob_clamped (ops : Ops) (x y : LogProb) : LogProb :=
  match add_log_prob ops x y with
  | Except.ok z => z
  | Except.error _ => ⟨F.fin 0⟩

/-- src/adding.rs `LogProb::add_log_prob_float`: the raw kernel result,
unvalidated. -/
def add_log_prob_float (ops : Ops) (x y : LogProb) : F :=
  add_log_prob_internal ops x.val y.val

end LogProb

/-- src/math.rs `impl Mul<u8/u16/...> for LogProb` (all operand orders
perform the same float multiplication): the unsigned integer is converted to
a float and multiplied, with no validation.  The conversion is exact in this
embedding. -/
def mulNat (n : ℕ) (x : LogProb) : LogProb := ⟨F.mul (F.fin (n : ℚ)) x.val⟩

/-- Rust `Iterator::sum::<T>()` on floats: a left fold of `+` from `+0.0`. -/
def sumF (l : List F) : F := l.foldl F.add (F.fin 0)

/-- Rust `Iterator::max` on `LogProb` (whose `Ord::cmp` unwraps
`partial_cmp`): the last maximal element, `none` on an empty sequence. -/
def listMax? : List LogProb → Option LogProb
  | [] => none
  | x :: xs => some (xs.foldl (fun acc y => if F.ieeeLt y.val acc.val then acc else y) x)

/-- src/adding.rs `log_sum_exp_inner`: shift by the max, exponentiate, sum,
log, shift back. -/
def log_sum_exp_inner (ops : Ops) (val : List LogProb) (max : LogProb) : F :=
  F.add (ops.ln (sumF (val.map fun x => ops.exp (F.sub x.val max.val)))) max.val

/-- src/adding.rs `log_sum_exp` (slice form): strict buffered reduction. -/
def log_sum_exp (ops : Ops) (val : List LogProb) :
    Except ProbabilitiesSumToGreaterThanOne LogProb :=
  match listMax? val with
  | some max =>
      match LogProb.new (log_sum_exp_inner ops val max) with
      | Except.ok x => Except.ok x
      | Except.error _ => Except.error ProbabilitiesSumToGreaterThanOne.mk
  | none => Except.ok ⟨F.negInf⟩

/-- src/adding.rs `log_sum_exp_clamped` (slice form). -/
def log_sum_exp_clamped (ops : Ops) (val : List LogProb) : LogProb :=
  match listMax? val with
  | some max =>
      match LogProb.new (log_sum_exp_inner ops val max) with
      | Except.ok x => x
      | Except.error _ => ⟨F.fin 0⟩
  | none => ⟨F.negInf⟩

/-- src/adding.rs `log_sum_exp_float` (slice form). -/
def log_sum_exp_float (ops : Ops) (val : List LogProb) : F :=
  match listMax? val with
  | some max => log_sum_exp_inner ops val max
  | none => F.negInf

/-- Rust `Iterator::try_fold` with `add_log_prob` (note the source folds with
`x.add_log_prob(acc)`: the element is the receiver).  The second component is
the part of the iterator the fold did not consume: `try_fold` stops at the
first error and leaves the rest of the iterator unread. -/
def tryFoldAddRem (ops : Ops) (acc : LogProb) :
    List LogProb → (Except ProbabilitiesSumToGreaterThanOne LogProb) × List LogProb
  | [] => (Except.ok acc, [])
  | x :: xs =>
      match LogProb.add_log_prob ops x acc with
      | Except.ok a => tryFoldAddRem ops a xs
      | Except.error e => (Except.error e, xs)

namespace LogSumExp

/-- src/adding.rs `LogSumExp::log_sum_exp_no_alloc`: streaming strict
reduction — first element as accumulator, then `try_fold` with the strict
pairwise add. -/
def log_sum_exp_no_alloc (ops : Ops) :
    List LogProb → Except ProbabilitiesSumToGreaterThanOne LogProb
  | [] => Except.ok ⟨F.negInf⟩
  | first :: rest => (tryFoldAddRem ops first rest).1

/-- src/adding.rs `LogSumExp::log_sum_exp_clamped_no_alloc`: the streaming
strict reduction with the error case replaced by `LogProb(T::ZERO)`. -/
def log_sum_exp_clamped_no_alloc (ops : Ops) : List LogProb → LogProb
  | [] => ⟨F.negInf⟩
  | first :: rest =>
      match (tryFoldAddRem ops first rest).1 with
      | Except.ok x => x
      | Except.error _ => ⟨F.fin 0⟩

/-- src/adding.rs `LogSumExp::log_sum_exp_float_no_alloc`: a plain fold of
the raw kernel over the iterator. -/
def log_sum_exp_float_no_alloc (ops : Ops) : List LogProb → F
  | [] => F.negInf
  | x :: xs =>
      xs.foldl (fun acc y => LogProb.add_log_prob_internal ops y.val acc) x.val

end LogSumExp

/-- src/adding.rs `log_sum_exp_allocate_inner`: collects the iterator into a
buffer while tracking a running maximum seeded with `LogProb(NEG_INFINITY)`
(updated on strictly-greater, so the first maximal element wins ties), then
calls `log_sum_exp_inner`. -/
def log_sum_exp_allocate_inner (ops : Ops) (l : List LogProb) : F :=
  log_sum_exp_inner ops l
    (l.foldl (fun m x => if F.ieeeLt m.val x.val then x else m) ⟨F.negInf⟩)

namespace LogSumExp

/-- src/adding.rs `LogSumExp::log_sum_exp` (iterator form): buffered strict
reduction. -/
def log_sum_exp (ops : Ops) (l : List LogProb) :
    Except ProbabilitiesSumToGreaterThanOne LogProb :=
  match LogProb.new (log_sum_exp_allocate_inner ops l) with
  | Except.ok x => Except.ok x
  | Except.error _ => Except.error ProbabilitiesSumToGreaterThanOne.mk

/-- src/adding.rs `LogSumExp::log_sum_exp_clamped` (iterator form). -/
def log_sum_exp_clamped (ops : Ops) (l : List LogProb) : LogProb :=
  match LogProb.new (log_sum_exp_allocate_inner ops l) with
  | Except.ok x => x
  | Except.error _ => ⟨F.fin 0⟩

/-- src/adding.rs `LogSumExp::log_sum_exp_float` (iterator form). -/
def log_sum_exp_float (ops : Ops) (l : List LogProb) : F :=
  log_sum_exp_allocate_inner ops l

end LogSumExp

/-- src/softmax.rs: the eager input validation — an element that is NaN, or
infinite with a positive sign, fails the whole collection. -/
def softmaxValidate : List F → Except FloatIsNanOrPositiveInfinity (List F)
  | [] => Except.ok []
  | x :: xs =>
      if x.isNan || (x.isInfinite && x.isSignPositive) then
        Except.error FloatIsNanOrPositiveInfinity.mk
      else
        match softmaxValidate xs with
        | Except.ok v => Except.ok (x :: v)
        | Except.error e => Except.error e

/-- src/softmax.rs: `val.iter().max_by(partial_cmp.unwrap()).unwrap_or(ZERO)`
— the last maximal element, defaulting to `+0.0` on an empty input. -/
def softmaxMax : List F → F
  | [] => F.fin 0
  | x :: xs => xs.foldl (fun acc y => if F.ieeeLt y acc then acc else y) x

/-- src/softmax.rs: `s = ln(Σ exp(xᵢ - max))`. -/
def softmaxS (ops : Ops) (v : List F) (max : F) : F :=
  ops.ln (sumF (v.map fun x => ops.exp (F.sub x max)))

/-- src/softmax.rs `softmax`: validate eagerly, then lazily emit
`LogProb::new(xᵢ - s - max).unwrap()` per element.  The `unwrap` is embedded
as `Except.toOption`: a `none` cell is an element whose emission panics. -/
def softmax (ops : Ops) (val : List F) :
    Except FloatIsNanOrPositiveInfinity (List (Option LogProb)) :=
  match softmaxValidate val with
  | Except.error e => Except.error e
  | Except.ok v =>
      let max := softmaxMax val
      let s := softmaxS ops v max
      Except.ok (v.map fun x => (LogProb.new (F.sub (F.sub x s) max)).toOption)

/-- The analytic facts about the capability interface that the crate's
correctness rests on.  Each holds of the exact real functions extended with
the IEEE special-value rules, and survives faithful rounding (a correctly
rounded result of a value in [0,1], respectively ≥ 0 or ≤ 0, stays so). -/
structure LawfulOps (ops : Ops) : Prop where
  exp_nan : ops.exp F.nan = F.nan
  exp_negInf : ops.exp F.negInf = F.fin 0
  exp_zero : ops.exp (F.fin 0) = F.fin 1
  exp_nonpos : ∀ x : F, x.isNonpos = true →
    ∃ q : ℚ, 0 ≤ q ∧ q ≤ 1 ∧ ops.exp x = F.fin q
  ln_nan : ops.ln F.nan = F.nan
  ln_zero : ops.ln (F.fin 0) = F.negInf
  ln_ge_one : ∀ q : ℚ, 1 ≤ q → ∃ r : ℚ, 0 ≤ r ∧ ops.ln (F.fin q) = F.fin r
  ln1p_nan : ops.ln1p F.nan = F.nan
  ln1p_negZero : ops.ln1p F.negZero = F.negZero
  ln1p_neg_one : ops.ln1p (F.fin (-1)) = F.negInf
  ln1p_unit : ∀ q : ℚ, -1 < q → q ≤ 1 →
    ∃ r : ℚ, (q ≤ 0 → r ≤ 0) ∧ ops.ln1p (F.fin q) = F.fin r
  ln2_fin : ∃ c : ℚ, 0 < c ∧ ops.ln2 = F.fin c

/-- A concrete capability instance: piecewise-rational stand-ins for `exp`,
`ln` and `ln_1p` that satisfy every `LawfulOps` fact, so the laws are
mutually satisfiable and theorems assuming them can be instantiated. -/
def toyOps : Ops where
  exp := fun x =>
    match x with
    | F.nan => F.nan
    | F.negInf => F.fin 0
    | F.posInf => F.posInf
    | F.negZero => F.fin 1
    | F.fin q => if q = 0 then F.fin 1 else if q < 0 then F.fin (1/2) else F.posInf
  ln := fun x =>
    match x with
    | F.nan => F.nan
    | F.negInf => F.nan
    | F.posInf => F.posInf
    | F.negZero => F.negInf
    | F.fin q => if q = 0 then F.negInf else if 1 ≤ q then F.fin (q - 1) else F.fin (-1)
  ln1p := fun x =>
    match x with
    | F.nan => F.nan
    | F.negInf => F.nan
    | F.posInf => F.posInf
    | F.negZero => F.negZero
    | F.fin q => if q = -1 then F.negInf else if q < -1 then F.nan else F.fin q
  ln2 := F.fin 1

/-! ## Helper lemmas -/

theorem toyOps_lawful : LawfulOps toyOps := by
  constructor
  case exp_nan => rfl
  case exp_negInf => rfl
  case exp_zero => simp [toyOps]
  case exp_nonpos =>
    intro x hx
    cases x with
    | nan => simp [F.isNonpos] at hx
    | posInf => simp [F.isNonpos] at hx
    | negInf => exact ⟨0, le_refl 0, by norm_num, rfl⟩
    | negZero => exact ⟨1, by norm_num, le_refl 1, rfl⟩
    | fin q =>
      simp [F.isNonpos] at hx
      by_cases h0 : q = 0
      · exact ⟨1, by norm_num, le_refl 1, by simp [toyOps, h0]⟩
      · have hlt : q < 0 := lt_of_le_of_ne hx h0
        exact ⟨1/2, by norm_num, by norm_num, by simp [toyOps, h0, hlt]⟩
  case ln_nan => rfl
  case ln_zero => simp [toyOps]
  case ln_ge_one =>
    intro q hq
    refine ⟨q - 1, by linarith, ?_⟩
    have h0 : ¬ q = 0 := by intro h; rw [h] at hq; norm_num at hq
    simp [toyOps, h0, hq]
  case ln1p_nan => rfl
  case ln1p_negZero => rfl
  case ln1p_neg_one => simp [toyOps]
  case ln1p_unit =>
    intro q hm _
    have h1 : ¬ q = -1 := by intro h; rw [h] at hm; norm_num at hm
    have h2 : ¬ q < -1 := by linarith
    exact ⟨q, fun h => h, by simp [toyOps, h1, h2]⟩
  case ln2_fin => exact ⟨1, by norm_num, rfl⟩

namespace F

theorem ieeeLt_asymm {x y : F} (h : ieeeLt x y = true) : ieeeLt y x = false := by
  cases x <;> cases y <;> simp_all [ieeeLt] <;> linarith

theorem ieeeLt_negInf (x : F) : ieeeLt x negInf = false := by
  cases x <;> rfl

theorem ieeeEq_not_lt {x y : F} (h : ieeeEq x y = true) :
    ieeeLt x y = false ∧ ieeeLt y x = false := by
  cases x <;> cases y <;> simp_all [ieeeEq, ieeeLt]

theorem valid_eq_nonpos (v : F) : isValidLP v = isNonpos v := by
  cases v <;> simp [isValidLP, isNan, isStrictPos, isNonpos, ← decide_not, not_lt]

theorem valid_ne_special {v : F} (hv : isValidLP v = true) :
    v.isNan = false ∧ v ≠ posInf := by
  cases v <;> simp_all [isValidLP, isNan, isStrictPos]

theorem sub_nonpos {a b : F} (ha : a.isNan = false) (hap : a ≠ posInf)
    (hb : b.isNan = false) (hbp : b ≠ posInf) (hbn : b ≠ negInf)
    (h : ieeeLt b a = false) : (sub a b).isNonpos = true := by
  cases a <;> cases b <;>
    simp_all [isNan, ieeeLt, sub, isNonpos, not_lt] <;>
    (try split_ifs) <;> simp_all [isNonpos] <;> linarith

theorem add_fin_not_nan {x : F} (hx : x.isNan = false) (r : ℚ) :
    isNan (add x (fin r)) = false := by
  cases x <;> simp_all [isNan, add]

theorem new_check_spec (v : F) :
    (v.isNan || (!v.isZero && v.isSignPositive)) = (!v.isValidLP) := by
  cases v with
  | fin q =>
    simp only [isNan, isZero, isSignPositive, isValidLP, isStrictPos]
    by_cases h0 : q = 0
    · simp [h0]
    · by_cases h1 : 0 < q
      · simp [h0, h1, le_of_lt h1]
      · have hq : q < 0 := lt_of_le_of_ne (not_lt.mp h1) h0
        simp [h0, h1, not_le.mpr hq]
  | _ => rfl

end F

namespace LogProb

theorem new_of_valid {v : F} (hv : v.isValidLP = true) :
    LogProb.new v = Except.ok ⟨v⟩ := by
  unfold LogProb.new
  rw [F.new_check_spec, hv]
  rfl

theorem new_of_invalid {v : F} (hv : v.isValidLP = false) :
    LogProb.new v = Except.error FloatIsNanOrPositive.mk := by
  unfold LogProb.new
  rw [F.new_check_spec, hv]
  rfl

theorem new_ok_iff {v : F} {x : LogProb} :
    LogProb.new v = Except.ok x ↔ (v.isValidLP = true ∧ x = ⟨v⟩) := by
  constructor
  · intro h
    cases hv : v.isValidLP with
    | true =>
      rw [new_of_valid hv] at h
      exact ⟨rfl, (Except.ok.injEq _ _ ▸ h.symm : _)⟩
    | false => rw [new_of_invalid hv] at h; cases h
  · rintro ⟨hv, rfl⟩
    exact new_of_valid hv

theorem new_error_iff {v : F} :
    LogProb.new v = Except.error FloatIsNanOrPositive.mk ↔ v.isValidLP = false := by
  cases hv : v.isValidLP with
  | true => rw [new_of_valid hv]; simp
  | false => rw [new_of_invalid hv]; simp

theorem new_ok_valid {v : F} {x : LogProb} (h : LogProb.new v = Except.ok x) :
    x.IsValid ∧ x.val = v := by
  obtain ⟨hv, rfl⟩ := new_ok_iff.mp h
  exact ⟨hv, rfl⟩

end LogProb

namespace F

theorem valid_fin {r : ℚ} (hr : r ≤ 0) : isValidLP (fin r) = true := by
  simp [isValidLP, isNan, isStrictPos, not_lt, hr]

theorem invalid_iff (v : F) :
    isValidLP v = false ↔ (v = nan ∨ v.isStrictPos = true) := by
  cases v <;> simp [isValidLP, isNan, isStrictPos]

end F

namespace LogProb

theorem kernel_not_nan (ops : Ops) (h : LawfulOps ops) {x y : F}
    (hx : x.isValidLP = true) (hy : y.isValidLP = true) :
    (add_log_prob_internal ops x y).isNan = false := by
  obtain ⟨hxn, hxp⟩ := F.valid_ne_special hx
  obtain ⟨hyn, hyp⟩ := F.valid_ne_special hy
  unfold add_log_prob_internal
  cases hgt : F.ieeeGt x y with
  | true =>
    simp only [hgt, if_true]
    have hgt' : F.ieeeLt y x = true := hgt
    have hxni : x ≠ F.negInf := by
      intro hx0
      rw [hx0, F.ieeeLt_negInf] at hgt'
      cases hgt'
    have hlt : F.ieeeLt x y = false := F.ieeeLt_asymm hgt'
    have hsub := F.sub_nonpos hyn hyp hxn hxp hxni hlt
    obtain ⟨q, hq0, hq1, hqe⟩ := h.exp_nonpos _ hsub
    obtain ⟨r, _, hre⟩ := h.ln1p_unit q (by linarith) hq1
    rw [hqe, hre]
    exact F.add_fin_not_nan hxn r
  | false =>
    simp only [hgt, Bool.false_eq_true, if_false]
    cases hlt : F.ieeeLt x y with
    | true =>
      simp only [hlt, if_true]
      have hyni : y ≠ F.negInf := by
        intro hy0
        rw [hy0, F.ieeeLt_negInf] at hlt
        cases hlt
      have hlt' : F.ieeeLt y x = false := F.ieeeLt_asymm hlt
      have hsub := F.sub_nonpos hxn hxp hyn hyp hyni hlt'
      obtain ⟨q, hq0, hq1, hqe⟩ := h.exp_nonpos _ hsub
      obtain ⟨r, _, hre⟩ := h.ln1p_unit q (by linarith) hq1
      rw [hqe, hre]
      exact F.add_fin_not_nan hyn r
    | false =>
      simp only [hlt, Bool.false_eq_true, if_false]
      obtain ⟨c, _, hce⟩ := h.ln2_fin
      rw [hce]
      exact F.add_fin_not_nan hxn c

theorem add_log_prob_ok {ops : Ops} {x y z : LogProb}
    (h : add_log_prob ops x y = Except.ok z) :
    z.IsValid ∧ z.val = add_log_prob_internal ops x.val y.val := by
  unfold add_log_prob at h
  cases hn : LogProb.new (add_log_prob_internal ops x.val y.val) with
  | ok w =>
    rw [hn] at h
    obtain rfl : w = z := by injection h
    exact new_ok_valid hn
  | error e =>
    rw [hn] at h
    cases h

theorem add_log_prob_error_iff {ops : Ops} {x y : LogProb} :
    add_log_prob ops x y = Except.error ProbabilitiesSumToGreaterThanOne.mk ↔
      (add_log_prob_internal ops x.val y.val).isValidLP = false := by
  unfold add_log_prob
  cases hv : (add_log_prob_internal ops x.val y.val).isValidLP with
  | true =>
    rw [new_of_valid hv]
    exact ⟨fun h => Except.noConfusion h, fun h => Bool.noConfusion h⟩
  | false =>
    rw [new_of_invalid hv]
    exact ⟨fun _ => rfl, fun _ => rfl⟩

theorem opposite_prob_valid (ops : Ops) (h : LawfulOps ops) (x : LogProb)
    (hx : x.IsValid) : (opposite_prob ops x).IsValid := by
  have hx' : x.val.isNonpos = true := by
    rw [← F.valid_eq_nonpos]; exact hx
  obtain ⟨q, hq0, hq1, hqe⟩ := h.exp_nonpos _ hx'
  show (ops.ln1p (F.neg (ops.exp x.val))).isValidLP = true
  rw [hqe]
  by_cases h0 : q = 0
  · subst h0
    show (ops.ln1p (F.neg (F.fin 0))).isValidLP = true
    have : F.neg (F.fin 0) = F.negZero := by simp [F.neg]
    rw [this, h.ln1p_negZero]
    rfl
  · have hneg : F.neg (F.fin q) = F.fin (-q) := by simp [F.neg, h0]
    rw [hneg]
    by_cases h1 : q = 1
    · subst h1
      rw [show ((-1 : ℚ)) = -1 from rfl, h.ln1p_neg_one]
      rfl
    · have hlt1 : q < 1 := lt_of_le_of_ne hq1 h1
      obtain ⟨r, hr, hre⟩ := h.ln1p_unit (-q) (by linarith) (by linarith)
      rw [hre]
      exact F.valid_fin (hr (by linarith))

theorem from_raw_prob_eq_new (ops : Ops) (v : F) :
    from_raw_prob ops v = LogProb.new (ops.ln v) := rfl

theorem add_valid {x y : LogProb} (hx : x.IsValid) (hy : y.IsValid) :
    (LogProb.add x y).IsValid := by
  obtain ⟨xv⟩ := x
  obtain ⟨yv⟩ := y
  show (F.add xv yv).isValidLP = true
  cases xv <;> cases yv <;>
    simp_all [LogProb.IsValid, F.isValidLP, F.isNan, F.isStrictPos, F.add,
      not_lt] <;>
    linarith

theorem tryFold_ok_valid {ops : Ops} {acc z : LogProb} {l : List LogProb}
    (hacc : acc.IsValid) (h : (tryFoldAddRem ops acc l).1 = Except.ok z) :
    z.IsValid := by
  induction l generalizing acc with
  | nil =>
    obtain rfl : acc = z := by injection h
    exact hacc
  | cons x xs ih =>
    unfold tryFoldAddRem at h
    cases ha : add_log_prob ops x acc with
    | ok a =>
      rw [ha] at h
      exact ih (add_log_prob_ok ha).1 h
    | error e =>
      rw [ha] at h
      cases h

end LogProb

theorem mulNat_valid (n : ℕ) (x : LogProb) (hx : x.IsValid)
    (h : n ≠ 0 ∨ x.val ≠ F.negInf) : (mulNat n x).IsValid := by
  obtain ⟨xv⟩ := x
  show (F.mul (F.fin (n : ℚ)) xv).isValidLP = true
  cases xv with
  | nan => simp [LogProb.IsValid, F.isValidLP, F.isNan] at hx
  | posInf => simp [LogProb.IsValid, F.isValidLP, F.isNan, F.isStrictPos] at hx
  | negInf =>
    have hn : n ≠ 0 := by
      rcases h with h | h
      · exact h
      · exact absurd rfl h
    have hq : (0 : ℚ) < (n : ℚ) := by
      exact_mod_cast Nat.pos_of_ne_zero hn
    simp [F.mul, F.isValidLP, F.isNan, F.isStrictPos, ne_of_gt hq,
      not_lt.mpr (le_of_lt hq)]
  | negZero =>
    have hq : ¬ ((n : ℚ) < 0) := not_lt.mpr (Nat.cast_nonneg n)
    simp [F.mul, F.isValidLP, F.isNan, F.isStrictPos, hq]
  | fin a =>
    have ha : a ≤ 0 := by
      simpa [LogProb.IsValid, F.isValidLP, F.isNan, F.isStrictPos, not_lt]
        using hx
    have hprod : (n : ℚ) * a ≤ 0 :=
      mul_nonpos_of_nonneg_of_nonpos (Nat.cast_nonneg n) ha
    simp only [F.mul]
    split_ifs with hcond
    · rfl
    · exact F.valid_fin hprod

theorem exceptToOption_some {ε α : Type} {e : Except ε α} {a : α}
    (h : e.toOption = some a) : e = Except.ok a := by
  cases e with
  | ok b =>
    obtain rfl : b = a := by simpa [Except.toOption] using h
    rfl
  | error _ => simp [Except.toOption] at h

theorem softmaxBad_iff (x : F) :
    (x.isNan || (x.isInfinite && x.isSignPositive)) = true ↔
      x = F.nan ∨ x = F.posInf := by
  cases x <;> simp [F.isNan, F.isInfinite, F.isSignPositive]

theorem softmaxValidate_error_iff (l : List F) :
    softmaxValidate l = Except.error FloatIsNanOrPositiveInfinity.mk ↔
      ∃ x ∈ l, (x.isNan || (x.isInfinite && x.isSignPositive)) = true := by
  induction l with
  | nil => simp [softmaxValidate]
  | cons x xs ih =>
    unfold softmaxValidate
    cases hb : (x.isNan || (x.isInfinite && x.isSignPositive)) with
    | true =>
      simp only [hb, if_true]
      constructor
      · intro _
        exact ⟨x, List.mem_cons_self x xs, hb⟩
      · intro _
        trivial
    | false =>
      simp only [hb, Bool.false_eq_true, if_false]
      cases hv : softmaxValidate xs with
      | ok v => simp_all [List.mem_cons]
      | error e => cases e; simp_all [List.mem_cons]

theorem softmaxValidate_ok_eq {l v : List F} (h : softmaxValidate l = Except.ok v) :
    v = l := by
  induction l generalizing v with
  | nil =>
    obtain rfl : ([] : List F) = v := by injection h
    rfl
  | cons x xs ih =>
    unfold softmaxValidate at h
    cases hb : (x.isNan || (x.isInfinite && x.isSignPositive)) with
    | true => rw [hb] at h; cases h
    | false =>
      rw [hb] at h
      simp only [Bool.false_eq_true, if_false] at h
      cases hv : softmaxValidate xs with
      | ok w =>
        rw [hv] at h
        obtain rfl : x :: w = v := by injection h
        rw [ih hv]
      | error e => rw [hv] at h; cases h

theorem tryFoldAddRem_error_append {ops : Ops} {acc : LogProb}
    {l₁ : List LogProb} {e : ProbabilitiesSumToGreaterThanOne}
    (l₂ : List LogProb) (h : (tryFoldAddRem ops acc l₁).1 = Except.error e) :
    tryFoldAddRem ops acc (l₁ ++ l₂) =
      (Except.error e, (tryFoldAddRem ops acc l₁).2 ++ l₂) := by
  induction l₁ generalizing acc with
  | nil => cases h
  | cons x xs ih =>
    rw [List.cons_append]
    unfold tryFoldAddRem at h ⊢
    cases ha : LogProb.add_log_prob ops x acc with
    | ok a =>
      rw [ha] at h
      exact ih h
    | error e' =>
      cases e'
      cases e
      rfl

theorem log_sum_exp_eq_of_max (ops : Ops) (l : List LogProb) (m : LogProb)
    (hm : listMax? l = some m) :
    log_sum_exp ops l =
      match LogProb.new (log_sum_exp_inner ops l m) with
      | Except.ok x => Except.ok x
      | Except.error _ => Except.error ProbabilitiesSumToGreaterThanOne.mk := by
  unfold log_sum_exp
  rw [hm]

theorem log_sum_exp_clamped_eq_of_max (ops : Ops) (l : List LogProb)
    (m : LogProb) (hm : listMax? l = some m) :
    log_sum_exp_clamped ops l =
      match LogProb.new (log_sum_exp_inner ops l m) with
      | Except.ok x => x
      | Except.error _ => ⟨F.fin 0⟩ := by
  unfold log_sum_exp_clamped
  rw [hm]

theorem log_sum_exp_ok_valid {ops : Ops} {l : List LogProb} {z : LogProb}
    (hz : log_sum_exp ops l = Except.ok z) : z.IsValid := by
  cases hm : listMax? l with
  | some m =>
    rw [log_sum_exp_eq_of_max ops l m hm] at hz
    cases hn : LogProb.new (log_sum_exp_inner ops l m) with
    | ok w =>
      rw [hn] at hz
      obtain rfl : w = z := by injection hz
      exact (LogProb.new_ok_valid hn).1
    | error e => rw [hn] at hz; cases hz
  | none =>
    unfold log_sum_exp at hz
    rw [hm] at hz
    obtain rfl : (⟨F.negInf⟩ : LogProb) = z := by injection hz
    rfl

theorem F.ieeeLt_irrefl (x : F) : F.ieeeLt x x = false := by
  cases x <;> simp [F.ieeeLt]

theorem F.ieeeLt_neg_trans {x y z : F} (hx : x.isNan = false)
    (hy : y.isNan = false) (hz : z.isNan = false)
    (h1 : F.ieeeLt x y = false) (h2 : F.ieeeLt y z = false) :
    F.ieeeLt x z = false := by
  cases x <;> cases y <;> cases z <;>
    simp_all [F.isNan, F.ieeeLt, not_lt] <;>
    linarith

theorem F.negInf_lt {x : F} (hx : x.isNan = false) (hne : x ≠ F.negInf) :
    F.ieeeLt F.negInf x = true := by
  cases x <;> simp_all [F.isNan, F.ieeeLt]

theorem F.sub_self_zero {m : F} (h1 : m.isNan = false) (h2 : m ≠ F.posInf)
    (h3 : m ≠ F.negInf) : F.sub m m = F.fin 0 := by
  cases m <;> simp_all [F.isNan, F.sub]

theorem F.sub_fin_bound {x m : F} {r : ℚ} (hr : 0 ≤ r)
    (hx : x.isNan = false) (hxp : x ≠ F.posInf) (hm : m.isNan = false)
    (hmp : m ≠ F.posInf) (hlt : F.ieeeLt m x = false) :
    (F.sub x (F.fin r)).isNan = false ∧ F.sub x (F.fin r) ≠ F.posInf ∧
      F.ieeeLt m (F.sub x (F.fin r)) = false := by
  cases x <;> cases m <;>
    simp_all [F.isNan, F.ieeeLt, F.sub, not_lt] <;>
    (try split_ifs) <;>
    (try simp_all [F.isNan, F.ieeeLt, not_lt]) <;>
    (try linarith)

/-- Behaviour of the shared max-by-fold (updating the accumulator unless the
new element is strictly below it): the result is the seed or a list element,
is not NaN when none of them are, and is an upper bound for all of them. -/
theorem maxFold_spec (a : F) (ys : List F) (ha : a.isNan = false)
    (hys : ∀ x ∈ ys, x.isNan = false) :
    (List.foldl (fun acc y => if F.ieeeLt y acc then acc else y) a ys = a ∨
      List.foldl (fun acc y => if F.ieeeLt y acc then acc else y) a ys ∈ ys) ∧
    (List.foldl (fun acc y => if F.ieeeLt y acc then acc else y) a ys).isNan
      = false ∧
    F.ieeeLt (List.foldl (fun acc y => if F.ieeeLt y acc then acc else y) a ys)
      a = false ∧
    ∀ x ∈ ys,
      F.ieeeLt (List.foldl (fun acc y => if F.ieeeLt y acc then acc else y)
        a ys) x = false := by
  induction ys generalizing a with
  | nil => exact ⟨Or.inl rfl, ha, F.ieeeLt_irrefl a, by simp⟩
  | cons y ys ih =>
    have hy : y.isNan = false := hys y (List.mem_cons_self _ _)
    have hrest : ∀ x ∈ ys, x.isNan = false :=
      fun x hx => hys x (List.mem_cons_of_mem _ hx)
    rw [List.foldl_cons]
    cases hcase : F.ieeeLt y a with
    | true =>
      simp only [hcase, if_true]
      obtain ⟨hmem, hnan, hlast, hall⟩ := ih a ha hrest
      have hya : F.ieeeLt a y = false := F.ieeeLt_asymm hcase
      refine ⟨?_, hnan, hlast, ?_⟩
      · rcases hmem with hmem | hmem
        · exact Or.inl hmem
        · exact Or.inr (List.mem_cons_of_mem _ hmem)
      · intro x hx
        rcases List.mem_cons.mp hx with rfl | hx
        · exact F.ieeeLt_neg_trans hnan ha hy hlast hya
        · exact hall x hx
    | false =>
      simp only [hcase, Bool.false_eq_true, if_false]
      obtain ⟨hmem, hnan, hlast, hall⟩ := ih y hy hrest
      refine ⟨?_, hnan, ?_, ?_⟩
      · rcases hmem with hmem | hmem
        · exact Or.inr (by rw [hmem]; exact List.mem_cons_self y ys)
        · exact Or.inr (List.mem_cons_of_mem _ hmem)
      · exact F.ieeeLt_neg_trans hnan hy ha hlast hcase
      · intro x hx
        rcases List.mem_cons.mp hx with rfl | hx
        · exact hlast
        · exact hall x hx

theorem softmaxMax_spec (l : List F) (hl : ∀ x ∈ l, x.isNan = false)
    (hne : l ≠ []) :
    softmaxMax l ∈ l ∧ ∀ x ∈ l, F.ieeeLt (softmaxMax l) x = false := by
  cases l with
  | nil => exact absurd rfl hne
  | cons a ys =>
    have ha : a.isNan = false := hl a (List.mem_cons_self _ _)
    have hys : ∀ x ∈ ys, x.isNan = false :=
      fun x hx => hl x (List.mem_cons_of_mem _ hx)
    obtain ⟨hmem, _, hlast, hall⟩ := maxFold_spec a ys ha hys
    simp only [softmaxMax]
    constructor
    · rcases hmem with hmem | hmem
      · exact (by rw [hmem]; exact List.mem_cons_self a ys)
      · exact List.mem_cons_of_mem _ hmem
    · intro x hx
      rcases List.mem_cons.mp hx with rfl | hx
      · exact hlast
      · exact hall x hx

theorem sumF_aux (ts : List F) (acc : ℚ) (hacc : 0 ≤ acc)
    (h : ∀ t ∈ ts, ∃ q, 0 ≤ q ∧ t = F.fin q) :
    ∃ S, 0 ≤ S ∧ acc ≤ S ∧ List.foldl F.add (F.fin acc) ts = F.fin S ∧
      ∀ t ∈ ts, ∀ q, t = F.fin q → q ≤ S := by
  induction ts generalizing acc with
  | nil => exact ⟨acc, hacc, le_refl _, rfl, by simp⟩
  | cons t ts ih =>
    obtain ⟨q, hq0, rfl⟩ := h t (List.mem_cons_self _ _)
    obtain ⟨S, hS0, hSacc, hSe, hSall⟩ := ih (acc + q) (by linarith)
      (fun u hu => h u (List.mem_cons_of_mem _ hu))
    refine ⟨S, hS0, by linarith, ?_, ?_⟩
    · rw [List.foldl_cons]
      exact hSe
    · intro u hu q' hu'
      rcases List.mem_cons.mp hu with rfl | hu
      · have hq' : q = q' := by injection hu'
        subst hq'
        linarith
      · exact hSall u hu q' hu'

theorem sumF_fin (ts : List F) (h : ∀ t ∈ ts, ∃ q, 0 ≤ q ∧ t = F.fin q) :
    ∃ S, 0 ≤ S ∧ sumF ts = F.fin S ∧
      ∀ t ∈ ts, ∀ q, t = F.fin q → q ≤ S := by
  obtain ⟨S, hS0, _, hSe, hSall⟩ := sumF_aux ts 0 (le_refl 0) h
  exact ⟨S, hS0, hSe, hSall⟩

/-! ## Claim theorems -/

/-- C2: the two-term addition kernel returns `x + ln1p(exp(y - x))` when
`x > y`, `y + ln1p(exp(x - y))` when `x < y`, and `x + ln 2` when `x` equals
`y`; the strict, clamped and float pairwise variants all compute exactly this
raw value before any validation or clamping. -/
theorem c2_kernel_branches (ops : Ops) (x y : LogProb) :
    (F.ieeeGt x.val y.val = true →
      LogProb.add_log_prob_internal ops x.val y.val =
        F.add x.val (ops.ln1p (ops.exp (F.sub y.val x.val)))) ∧
    (F.ieeeLt x.val y.val = true →
      LogProb.add_log_prob_internal ops x.val y.val =
        F.add y.val (ops.ln1p (ops.exp (F.sub x.val y.val)))) ∧
    (F.ieeeEq x.val y.val = true →
      LogProb.add_log_prob_internal ops x.val y.val = F.add x.val ops.ln2) ∧
    (LogProb.add_log_prob_float ops x y =
      LogProb.add_log_prob_internal ops x.val y.val) ∧
    (∀ z, LogProb.add_log_prob ops x y = Except.ok z →
      z.val = LogProb.add_log_prob_internal ops x.val y.val) ∧
    (LogProb.add_log_prob_clamped ops x y =
        ⟨LogProb.add_log_prob_internal ops x.val y.val⟩ ∨
      LogProb.add_log_prob_clamped ops x y = ⟨F.fin 0⟩) := by
  refine ⟨?_, ?_, ?_, rfl, ?_, ?_⟩
  · intro hgt
    unfold LogProb.add_log_prob_internal
    simp only [hgt, if_true]
  · intro hlt
    have hgt : F.ieeeGt x.val y.val = false := F.ieeeLt_asymm hlt
    unfold LogProb.add_log_prob_internal
    simp only [hgt, Bool.false_eq_true, if_false, hlt, if_true]
  · intro heq
    obtain ⟨h1, h2⟩ := F.ieeeEq_not_lt heq
    have hgt : F.ieeeGt x.val y.val = false := h2
    unfold LogProb.add_log_prob_internal
    simp only [hgt, h1, Bool.false_eq_true, if_false]
  · intro z hz
    exact (LogProb.add_log_prob_ok hz).2
  · unfold LogProb.add_log_prob_clamped
    cases ha : LogProb.add_log_prob ops x y with
    | ok z =>
      left
      have := (LogProb.add_log_prob_ok ha).2
      cases z
      simp_all
    | error e => right; rfl

/-- C3: the strict pairwise add errors exactly when the raw kernel value is
strictly positive; the clamped variant returns `+0.0` under the same
condition and the strict result otherwise; the float variant never fails and
returns the raw value unconditionally. -/
theorem c3_pairwise_error_handling (ops : Ops) (h : LawfulOps ops)
    (x y : LogProb) (hx : x.IsValid) (hy : y.IsValid) :
    (LogProb.add_log_prob ops x y =
        Except.error ProbabilitiesSumToGreaterThanOne.mk ↔
      (LogProb.add_log_prob_internal ops x.val y.val).isStrictPos = true) ∧
    ((LogProb.add_log_prob_internal ops x.val y.val).isStrictPos = true →
      LogProb.add_log_prob_clamped ops x y = ⟨F.fin 0⟩) ∧
    ((LogProb.add_log_prob_internal ops x.val y.val).isStrictPos = false →
      LogProb.add_log_prob ops x y =
          Except.ok ⟨LogProb.add_log_prob_internal ops x.val y.val⟩ ∧
        LogProb.add_log_prob_clamped ops x y =
          ⟨LogProb.add_log_prob_internal ops x.val y.val⟩) ∧
    (LogProb.add_log_prob_float ops x y =
      LogProb.add_log_prob_internal ops x.val y.val) := by
  have hnn := LogProb.kernel_not_nan ops h hx hy
  have hval : (LogProb.add_log_prob_internal ops x.val y.val).isValidLP =
      !(LogProb.add_log_prob_internal ops x.val y.val).isStrictPos := by
    unfold F.isValidLP
    rw [hnn]
    rfl
  have herr := @LogProb.add_log_prob_error_iff ops x y
  constructor
  · rw [herr, hval]
    cases (LogProb.add_log_prob_internal ops x.val y.val).isStrictPos <;> simp
  refine ⟨?_, ?_, rfl⟩
  · intro hpos
    unfold LogProb.add_log_prob_clamped
    rw [herr.mpr (by rw [hval, hpos]; rfl)]
  · intro hpos
    have hv : (LogProb.add_log_prob_internal ops x.val y.val).isValidLP = true := by
      rw [hval, hpos]; rfl
    have hok : LogProb.add_log_prob ops x y =
        Except.ok ⟨LogProb.add_log_prob_internal ops x.val y.val⟩ := by
      unfold LogProb.add_log_prob
      rw [LogProb.new_of_valid hv]
    refine ⟨hok, ?_⟩
    unfold LogProb.add_log_prob_clamped
    rw [hok]

/-- Witness for C3 at a concrete input: adding probability 1 to itself
overflows, so the clamped variant saturates to `+0.0`. -/
theorem c3_witness :
    LawfulOps toyOps ∧ (LogProb.mk (F.fin 0)).IsValid ∧
      LogProb.add_log_prob_clamped toyOps ⟨F.fin 0⟩ ⟨F.fin 0⟩ = ⟨F.fin 0⟩ :=
  ⟨toyOps_lawful, by rfl,
    (c3_pairwise_error_handling toyOps toyOps_lawful ⟨F.fin 0⟩ ⟨F.fin 0⟩
      (by rfl) (by rfl)).2.1
      (by norm_num [LogProb.add_log_prob_internal, F.ieeeGt, F.ieeeLt, F.add,
        toyOps, F.isStrictPos])⟩

/-- C8: the log-domain constructor fails exactly on NaN or strictly positive
arguments; on success it stores the argument unchanged, preserving signed
zero, and `new(0.0)` and `new(-0.0)` both succeed and compare equal. -/
theorem c8_new_constructor (v : F) :
    (LogProb.new v = Except.error FloatIsNanOrPositive.mk ↔
      (v = F.nan ∨ v.isStrictPos = true)) ∧
    (∀ x, LogProb.new v = Except.ok x → x.val = v) ∧
    LogProb.new (F.fin 0) = Except.ok ⟨F.fin 0⟩ ∧
    LogProb.new F.negZero = Except.ok ⟨F.negZero⟩ ∧
    LogProb.beq ⟨F.fin 0⟩ ⟨F.negZero⟩ = true := by
  refine ⟨?_, ?_, by rfl, by rfl, by rfl⟩
  · rw [LogProb.new_error_iff, F.invalid_iff]
  · intro x hx
    exact (LogProb.new_ok_valid hx).2

/-- C10: `opposite_prob` computes `ln_1p(-exp x)` and wraps it with no
re-validation, and the result always satisfies the invariant; the complement
of probability one is negative infinity and the complement of probability
zero is the negative zero. -/
theorem c10_opposite_prob (ops : Ops) (h : LawfulOps ops) (x : LogProb)
    (hx : x.IsValid) :
    LogProb.opposite_prob ops x = ⟨ops.ln1p (F.neg (ops.exp x.val))⟩ ∧
    (LogProb.opposite_prob ops x).IsValid ∧
    LogProb.opposite_prob ops ⟨F.fin 0⟩ = ⟨F.negInf⟩ ∧
    LogProb.opposite_prob ops ⟨F.negInf⟩ = ⟨F.negZero⟩ := by
  refine ⟨rfl, LogProb.opposite_prob_valid ops h x hx, ?_, ?_⟩
  · unfold LogProb.opposite_prob
    rw [show (LogProb.mk (F.fin 0)).val = F.fin 0 from rfl, h.exp_zero]
    rw [show F.neg (F.fin 1) = F.fin (-1) by simp [F.neg], h.ln1p_neg_one]
  · unfold LogProb.opposite_prob
    rw [show (LogProb.mk F.negInf).val = F.negInf from rfl, h.exp_negInf]
    rw [show F.neg (F.fin 0) = F.negZero by simp [F.neg], h.ln1p_negZero]

/-- Witness for C10 at the concrete input `ln(1) = +0.0`. -/
theorem c10_witness :
    LawfulOps toyOps ∧ (LogProb.mk (F.fin 0)).IsValid ∧
      LogProb.opposite_prob toyOps ⟨F.fin 0⟩ = ⟨F.negInf⟩ :=
  ⟨toyOps_lawful, by rfl,
    (c10_opposite_prob toyOps toyOps_lawful ⟨F.fin 0⟩ (by rfl)).2.2.1⟩

/-- C1 (amended): every value produced by the public operations satisfies the
type invariant (never NaN, never strictly positive): the validated
constructors, the strict and clamped pairwise adds, the `+`/`+=` operator on
valid operands, scalar multiplication by an unsigned integer that is nonzero
or applied to a value other than negative infinity, `opposite_prob`, the
strict and clamped sequence reducers (the streaming ones on valid elements),
and every successfully emitted softmax output. -/
theorem c1_invariant_closure (ops : Ops) (h : LawfulOps ops) :
    (∀ v x, LogProb.new v = Except.ok x → x.IsValid) ∧
    (∀ v x, LogProb.from_raw_prob ops v = Except.ok x → x.IsValid) ∧
    (∀ x y z, LogProb.add_log_prob ops x y = Except.ok z → z.IsValid) ∧
    (∀ x y, (LogProb.add_log_prob_clamped ops x y).IsValid) ∧
    (∀ x y, x.IsValid → y.IsValid → (LogProb.add x y).IsValid) ∧
    (∀ (n : ℕ) x, x.IsValid → (n ≠ 0 ∨ x.val ≠ F.negInf) →
      (mulNat n x).IsValid) ∧
    (∀ x, x.IsValid → (LogProb.opposite_prob ops x).IsValid) ∧
    (∀ l z, log_sum_exp ops l = Except.ok z → z.IsValid) ∧
    (∀ l, (log_sum_exp_clamped ops l).IsValid) ∧
    (∀ l z, (∀ w ∈ l, w.IsValid) →
      LogSumExp.log_sum_exp_no_alloc ops l = Except.ok z → z.IsValid) ∧
    (∀ l, (∀ w ∈ l, w.IsValid) →
      (LogSumExp.log_sum_exp_clamped_no_alloc ops l).IsValid) ∧
    (∀ l z, LogSumExp.log_sum_exp ops l = Except.ok z → z.IsValid) ∧
    (∀ l, (LogSumExp.log_sum_exp_clamped ops l).IsValid) ∧
    (∀ val out x, softmax ops val = Except.ok out → some x ∈ out →
      x.IsValid) := by
  refine ⟨?_, ?_, ?_, ?_, ?_, ?_, ?_, ?_, ?_, ?_, ?_, ?_, ?_, ?_⟩
  · intro v x hx
    exact (LogProb.new_ok_valid hx).1
  · intro v x hx
    rw [LogProb.from_raw_prob_eq_new] at hx
    exact (LogProb.new_ok_valid hx).1
  · intro x y z hz
    exact (LogProb.add_log_prob_ok hz).1
  · intro x y
    unfold LogProb.add_log_prob_clamped
    cases ha : LogProb.add_log_prob ops x y with
    | ok z => exact (LogProb.add_log_prob_ok ha).1
    | error e => rfl
  · intro x y hx hy
    exact LogProb.add_valid hx hy
  · intro n x hx hcond
    exact mulNat_valid n x hx hcond
  · intro x hx
    exact LogProb.opposite_prob_valid ops h x hx
  · intro l z hz
    exact log_sum_exp_ok_valid hz
  · intro l
    cases hm : listMax? l with
    | some m =>
      rw [log_sum_exp_clamped_eq_of_max ops l m hm]
      cases hn : LogProb.new (log_sum_exp_inner ops l m) with
      | ok w => exact (LogProb.new_ok_valid hn).1
      | error e => rfl
    | none =>
      unfold log_sum_exp_clamped
      rw [hm]
      rfl
  · intro l z hl hz
    cases l with
    | nil =>
      obtain rfl : (⟨F.negInf⟩ : LogProb) = z := by injection hz
      rfl
    | cons first rest =>
      exact LogProb.tryFold_ok_valid (hl first (List.mem_cons_self _ _)) hz
  · intro l hl
    cases l with
    | nil => rfl
    | cons first rest =>
      show ((match (tryFoldAddRem ops first rest).1 with
        | Except.ok x => x
        | Except.error _ => ⟨F.fin 0⟩) : LogProb).IsValid
      cases hr : (tryFoldAddRem ops first rest).1 with
      | ok z =>
        exact LogProb.tryFold_ok_valid (hl first (List.mem_cons_self _ _)) hr
      | error e => rfl
  · intro l z hz
    unfold LogSumExp.log_sum_exp at hz
    cases hn : LogProb.new (log_sum_exp_allocate_inner ops l) with
    | ok w =>
      rw [hn] at hz
      obtain rfl : w = z := by injection hz
      exact (LogProb.new_ok_valid hn).1
    | error e => rw [hn] at hz; cases hz
  · intro l
    unfold LogSumExp.log_sum_exp_clamped
    cases hn : LogProb.new (log_sum_exp_allocate_inner ops l) with
    | ok w => exact (LogProb.new_ok_valid hn).1
    | error e => rfl
  · intro val out x hout hx
    unfold softmax at hout
    cases hv : softmaxValidate val with
    | error e => rw [hv] at hout; cases hout
    | ok v =>
      rw [hv] at hout
      injection hout with hh
      subst hh
      simp only [List.mem_map] at hx
      obtain ⟨w, _, hwx⟩ := hx
      exact (LogProb.new_ok_valid (exceptToOption_some hwx)).1

/-- C1 counterexample: the scalar zero times the negative-infinity
log-probability is `0 * -∞ = NaN`, so that product violates the invariant. -/
theorem c1_counterexample :
    (LogProb.mk F.negInf).IsValid ∧ ¬ (mulNat 0 ⟨F.negInf⟩).IsValid := by
  constructor
  · rfl
  · intro hc
    have hm : mulNat 0 ⟨F.negInf⟩ = ⟨F.nan⟩ := by
      show LogProb.mk (F.mul (F.fin ((0 : ℕ) : ℚ)) F.negInf) = ⟨F.nan⟩
      norm_num [F.mul]
    rw [hm] at hc
    exact Bool.noConfusion hc

/-- Witness for C1 at a concrete input of the amended scalar conjunct. -/
theorem c1_witness :
    LawfulOps toyOps ∧ (LogProb.mk (F.fin (-3))).IsValid ∧
      (mulNat 2 ⟨F.fin (-3)⟩).IsValid :=
  ⟨toyOps_lawful, by rfl,
    (c1_invariant_closure toyOps toyOps_lawful).2.2.2.2.2.1 2 ⟨F.fin (-3)⟩
      (by rfl) (Or.inl (by decide))⟩

/-- C4: every sequence-reduction entry point returns negative infinity on an
empty input: the three slice forms and the six iterator forms of the
`LogSumExp` trait (streaming and buffered, each strict, clamped and float). -/
theorem c4_empty_reductions (ops : Ops) (h : LawfulOps ops) :
    log_sum_exp ops [] = Except.ok ⟨F.negInf⟩ ∧
    log_sum_exp_clamped ops [] = ⟨F.negInf⟩ ∧
    log_sum_exp_float ops [] = F.negInf ∧
    LogSumExp.log_sum_exp_no_alloc ops [] = Except.ok ⟨F.negInf⟩ ∧
    LogSumExp.log_sum_exp_clamped_no_alloc ops [] = ⟨F.negInf⟩ ∧
    LogSumExp.log_sum_exp_float_no_alloc ops [] = F.negInf ∧
    LogSumExp.log_sum_exp ops [] = Except.ok ⟨F.negInf⟩ ∧
    LogSumExp.log_sum_exp_clamped ops [] = ⟨F.negInf⟩ ∧
    LogSumExp.log_sum_exp_float ops [] = F.negInf := by
  have hinner : log_sum_exp_allocate_inner ops [] =
      F.add (ops.ln (F.fin 0)) F.negInf := rfl
  rw [h.ln_zero] at hinner
  have hinner2 : log_sum_exp_allocate_inner ops [] = F.negInf := by
    rw [hinner]; rfl
  refine ⟨rfl, rfl, rfl, rfl, rfl, rfl, ?_, ?_, hinner2⟩
  · unfold LogSumExp.log_sum_exp
    rw [hinner2]
    rfl
  · unfold LogSumExp.log_sum_exp_clamped
    rw [hinner2]
    rfl

/-- Witness for C4: the buffered strict iterator reduction of the empty
sequence under the concrete capability instance. -/
theorem c4_witness :
    LawfulOps toyOps ∧
      LogSumExp.log_sum_exp toyOps [] = Except.ok ⟨F.negInf⟩ :=
  ⟨toyOps_lawful, (c4_empty_reductions toyOps toyOps_lawful).2.2.2.2.2.2.1⟩

/-- C5 (code bug evidence): on the slice `[-∞]` — every probability zero, so
the true sum is `0 ≤ 1` — the buffered strict reducer nonetheless returns the
`ProbabilitiesSumToGreaterThanOne` error, because the max-and-shift pass
computes `-∞ - (-∞) = NaN`; the streaming strict reducer on the same input
returns `Ok(-∞)` as the claim expects. -/
theorem c5_all_neg_inf_slice_errors :
    log_sum_exp toyOps [⟨F.negInf⟩] =
        Except.error ProbabilitiesSumToGreaterThanOne.mk ∧
      LogSumExp.log_sum_exp_no_alloc toyOps [⟨F.negInf⟩] =
        Except.ok ⟨F.negInf⟩ := by
  constructor
  · rfl
  · rfl

/-- C6 counterexample: `[-∞]` passes softmax's input validation (negative
infinity is accepted), yet its single output element fails to wrap — the
embedded `unwrap` panics, modelled by the `none` cell — because the shift
produces `-∞ - (-∞) = NaN`. -/
theorem c6_counterexample :
    softmax toyOps [F.negInf] = Except.ok [none] := by rfl

/-- C6 (amended): for every accepted softmax input (no element NaN or
positive infinity) that is empty or has some element above negative infinity,
every emitted output cell wraps successfully into a valid log-probability —
the internal `unwrap` cannot panic.  (A nonempty input consisting solely of
negative infinities is accepted but its emission panics: the shift computes
`-∞ - (-∞) = NaN`; see the counterexample.) -/
theorem c6_softmax_outputs_wrap (ops : Ops) (h : LawfulOps ops)
    (val : List F) (hacc : ∀ x ∈ val, ¬(x = F.nan ∨ x = F.posInf))
    (hfin : val = [] ∨ ∃ x ∈ val, x ≠ F.negInf) :
    ∀ out, softmax ops val = Except.ok out →
      ∀ o ∈ out, ∃ lp, o = some lp ∧ lp.IsValid := by
  intro out hout o ho
  unfold softmax at hout
  cases hv : softmaxValidate val with
  | error e => rw [hv] at hout; cases hout
  | ok v =>
    rw [hv] at hout
    obtain rfl := (softmaxValidate_ok_eq hv).symm
    injection hout with hh
    subst hh
    simp only [List.mem_map] at ho
    obtain ⟨x, hxmem, hxo⟩ := ho
    have hxn : x.isNan = false := by
      have := hacc x hxmem
      cases x <;> simp_all [F.isNan]
    have hxp : x ≠ F.posInf := fun hc => (hacc x hxmem) (Or.inr hc)
    have hne : val ≠ [] := by
      intro hnil
      subst hnil
      cases hxmem
    have hnanall : ∀ y ∈ val, y.isNan = false := by
      intro y hy
      have := hacc y hy
      cases y <;> simp_all [F.isNan]
    obtain ⟨hmmem, hub⟩ := softmaxMax_spec val hnanall hne
    have hmn : (softmaxMax val).isNan = false := hnanall _ hmmem
    have hmp : softmaxMax val ≠ F.posInf :=
      fun hc => (hacc _ hmmem) (Or.inr hc)
    have hmninf : softmaxMax val ≠ F.negInf := by
      intro hc
      rcases hfin with rfl | ⟨x0, hx0mem, hx0⟩
      · cases hxmem
      · have h1 := hub x0 hx0mem
        rw [hc, F.negInf_lt (hnanall x0 hx0mem) hx0] at h1
        cases h1
    have hterms : ∀ t ∈ val.map (fun w => ops.exp (F.sub w (softmaxMax val))),
        ∃ q, 0 ≤ q ∧ t = F.fin q := by
      intro t ht
      simp only [List.mem_map] at ht
      obtain ⟨w, hwmem, rfl⟩ := ht
      have hwn : w.isNan = false := hnanall w hwmem
      have hwp : w ≠ F.posInf := fun hc => (hacc w hwmem) (Or.inr hc)
      have hsub := F.sub_nonpos hwn hwp hmn hmp hmninf (hub w hwmem)
      obtain ⟨q, hq0, hq1, hqe⟩ := h.exp_nonpos _ hsub
      exact ⟨q, hq0, hqe⟩
    obtain ⟨S, hS0, hSe, hSall⟩ := sumF_fin _ hterms
    have hone : (1 : ℚ) ≤ S := by
      have hmm : ops.exp (F.sub (softmaxMax val) (softmaxMax val)) =
          F.fin 1 := by
        rw [F.sub_self_zero hmn hmp hmninf, h.exp_zero]
      have hmem1 : F.fin 1 ∈
          val.map (fun w => ops.exp (F.sub w (softmaxMax val))) := by
        simp only [List.mem_map]
        exact ⟨softmaxMax val, hmmem, hmm⟩
      exact hSall _ hmem1 1 rfl
    obtain ⟨r, hr0, hre⟩ := h.ln_ge_one S hone
    have hs : softmaxS ops val (softmaxMax val) = F.fin r := by
      unfold softmaxS
      rw [hSe, hre]
    rw [hs] at hxo
    obtain ⟨hun, hup, hult⟩ :=
      F.sub_fin_bound hr0 hxn hxp hmn hmp (hub x hxmem)
    have hvalid :
        (F.sub (F.sub x (F.fin r)) (softmaxMax val)).isValidLP = true := by
      rw [F.valid_eq_nonpos]
      exact F.sub_nonpos hun hup hmn hmp hmninf hult
    rw [LogProb.new_of_valid hvalid] at hxo
    exact ⟨⟨F.sub (F.sub x (F.fin r)) (softmaxMax val)⟩, hxo.symm, hvalid⟩

/-- Witness for C6 at the concrete accepted input `[-1.0]`: the single
emitted cell wraps successfully. -/
theorem c6_witness :
    LawfulOps toyOps ∧
      softmax toyOps [F.fin (-1)] = Except.ok [some ⟨F.fin 0⟩] ∧
      (∃ lp, (some (LogProb.mk (F.fin 0)) : Option LogProb) = some lp ∧
        lp.IsValid) := by
  have hsm : softmax toyOps [F.fin (-1)] = Except.ok [some ⟨F.fin 0⟩] := by
    norm_num [softmax, softmaxValidate, softmaxMax, softmaxS, sumF, toyOps,
      F.sub, F.isNan, F.isInfinite, F.isSignPositive, F.add, LogProb.new,
      F.isZero, Except.toOption]
  refine ⟨toyOps_lawful, hsm, ?_⟩
  exact c6_softmax_outputs_wrap toyOps toyOps_lawful [F.fin (-1)]
    (by simp) (Or.inr ⟨F.fin (-1), by simp, by simp⟩)
    [some ⟨F.fin 0⟩] hsm (some ⟨F.fin 0⟩) (List.mem_singleton.mpr rfl)

/-- C7: softmax errors exactly when some input element is NaN or positive
infinity (negative infinity is accepted), the validation covering the whole
input before any output exists; on success it emits exactly one wrapped cell
per input element, in input order, each computed from its input element by
the shift formula. -/
theorem c7_softmax_validation (ops : Ops) (val : List F) :
    (softmax ops val = Except.error FloatIsNanOrPositiveInfinity.mk ↔
      ∃ x ∈ val, x = F.nan ∨ x = F.posInf) ∧
    (∀ out, softmax ops val = Except.ok out →
      out.length = val.length ∧
      ∀ i (hi : i < out.length) (hi' : i < val.length),
        out[i] = (LogProb.new (F.sub (F.sub val[i]
          (softmaxS ops val (softmaxMax val))) (softmaxMax val))).toOption) := by
  have hiff := softmaxValidate_error_iff val
  constructor
  · unfold softmax
    cases hv : softmaxValidate val with
    | ok v =>
      rw [hv] at hiff
      constructor
      · intro hc
        exact Except.noConfusion hc
      · rintro ⟨x, hx, hcase⟩
        exact Except.noConfusion
          (hiff.mpr ⟨x, hx, (softmaxBad_iff x).mpr hcase⟩)
    | error e =>
      cases e
      rw [hv] at hiff
      constructor
      · intro _
        obtain ⟨x, hx, hb⟩ := hiff.mp rfl
        exact ⟨x, hx, (softmaxBad_iff x).mp hb⟩
      · intro _
        rfl
  · intro out hout
    unfold softmax at hout
    cases hv : softmaxValidate val with
    | error e => rw [hv] at hout; cases hout
    | ok v =>
      rw [hv] at hout
      obtain rfl := softmaxValidate_ok_eq hv
      injection hout with hh
      subst hh
      constructor
      · simp
      · intro i hi hi'
        simp

/-- C9: if the strict streaming fold over the prefix `first :: s` overflows,
the clamped streaming reducer on the whole sequence returns exactly `+0.0`
whatever the remainder `t` holds, and the short-circuiting `try_fold` leaves
all of `t` unconsumed. -/
theorem c9_clamped_short_circuit (ops : Ops) (first : LogProb)
    (s t : List LogProb)
    (h : ∃ e, LogSumExp.log_sum_exp_no_alloc ops (first :: s) =
      Except.error e) :
    LogSumExp.log_sum_exp_clamped_no_alloc ops ((first :: s) ++ t) =
        ⟨F.fin 0⟩ ∧
      (tryFoldAddRem ops first (s ++ t)).2 =
        (tryFoldAddRem ops first s).2 ++ t := by
  obtain ⟨e, he⟩ := h
  have he' : (tryFoldAddRem ops first s).1 = Except.error e := he
  have happ := tryFoldAddRem_error_append t he'
  constructor
  · show (match (tryFoldAddRem ops first (s ++ t)).1 with
      | Except.ok x => x
      | Except.error _ => ⟨F.fin 0⟩ : LogProb) = ⟨F.fin 0⟩
    rw [happ]
  · rw [happ]

/-- Witness for C9: two copies of probability 1 (stored as `-0.0`) overflow
on the second strict step, and the clamped streaming reduction of the
extended sequence clamps to `+0.0` without reading the appended element. -/
theorem c9_witness :
    (∃ e, LogSumExp.log_sum_exp_no_alloc toyOps [⟨F.negZero⟩, ⟨F.negZero⟩] =
      Except.error e) ∧
    LogSumExp.log_sum_exp_clamped_no_alloc toyOps
      ([⟨F.negZero⟩, ⟨F.negZero⟩] ++ [⟨F.negInf⟩]) = ⟨F.fin 0⟩ :=
  ⟨⟨ProbabilitiesSumToGreaterThanOne.mk, by rfl⟩,
    (c9_clamped_short_circuit toyOps ⟨F.negZero⟩ [⟨F.negZero⟩] [⟨F.negInf⟩]
      ⟨ProbabilitiesSumToGreaterThanOne.mk, by rfl⟩).1⟩

end Logprob
